import Mathlib

/-!
Verification of the ProcessXY flow-diagram system: a shallow embedding of the
layout engine (src/utils/autoLayout.ts) and of the graph reconciliation engine
(the merge function, the edges-event handler and the incremental record framers
of src/components/OvalNode.tsx, src/hooks/useGraphStream.ts and src/index.ts),
together with theorems settling the frozen claims about them.

Conventions of the embedding:
- TypeScript numbers are rationals (`Rat`); all layout arithmetic is exact.
- JavaScript `Map` objects are association lists with JS insertion-order
  semantics (`jsInsert` replaces in place, otherwise appends).
- The union-find table of `findSubgraphs` is a total function
  `Option String → Option String`: `Map.get` of a missing key is `none`,
  mirroring JavaScript's `undefined` (including the possibility of `undefined`
  itself becoming a key, which the source code permits for dangling edge ids).
- Loops are structural recursions; the two searches whose termination is not
  structural (union-find `find`, the BFS level assignment) take an explicit
  fuel argument that over-approximates the number of iterations the source
  can perform on the same input.
-/

namespace ProcessXY

set_option maxRecDepth 4000

/-- Character constants, used to build test strings and to scan framed records. -/
def lbraceC : Char := Char.ofNat 123

def rbraceC : Char := Char.ofNat 125

def lbrackC : Char := Char.ofNat 91

def rbrackC : Char := Char.ofNat 93

def quoteC : Char := Char.ofNat 34

def backslashC : Char := Char.ofNat 92

/-- The string consisting of a single opening brace. -/
def lbraceS : String := String.mk [lbraceC]

/-- The SSE line marker stripped by the client framer. -/
def dataTag : String := "data: "

/-- The edge type that the layout filter always excludes. -/
def selfConnectingS : String := "selfConnecting"

def defaultS : String := "default"

def diamondS : String := "diamond"

def ovalS : String := "oval"

def newlineS : String := String.mk [Char.ofNat 10]

/-- A 2-D position, top-left convention, as in the React Flow node records. -/
structure Pos where
  x : Rat
  y : Rat
deriving DecidableEq

/-- The presentation payload of a node (`data` in the node record).  These
fields are inert for both engines. -/
structure NodeData where
  label : String
  status : Option String
  color : Option String
  outputCount : Option Nat
deriving DecidableEq

/-- A flow node: `{ id, type?, position, data }`. -/
structure Node where
  id : String
  type : Option String
  position : Pos
  data : NodeData
deriving DecidableEq

/-- A flow edge: `{ id, source, target, type?, sourceHandle?, targetHandle?,
label?, markerEnd? }`; `markerEnd` is modelled by its `type` field, the only
part the code inspects. -/
structure Edge where
  id : String
  source : String
  target : String
  type : Option String
  sourceHandle : Option String
  targetHandle : Option String
  label : Option String
  markerEnd : Option String
deriving DecidableEq

/-- Reconciliation mode: full rebuild vs incremental patch. -/
inductive Mode where
  | create
  | update
deriving DecidableEq

/- ## Merge function (mergeNodes in OvalNode.tsx / useGraphStream.ts) -/

/-- Association-list lookup: `Map.get`. -/
def alGet {α : Type} (m : List (String × α)) (k : String) : Option α :=
  match m with
  | [] => none
  | p :: r => if p.1 = k then some p.2 else alGet r k

/-- JS `Map.set`: replace in place if the key is present, else append. -/
def jsInsert {α : Type} (m : List (String × α)) (k : String) (v : α) :
    List (String × α) :=
  if m.any (fun p => p.1 = k) then
    m.map (fun p => if p.1 = k then (k, v) else p)
  else
    m ++ [(k, v)]

/-- JS `Map.delete`. -/
def jsDelete {α : Type} (m : List (String × α)) (k : String) :
    List (String × α) :=
  m.filter (fun p => ¬ p.1 = k)

/-- `new Map(updatedNodes.map(n => [n.id, n]))`: build a JS map keyed by id;
a later node with a duplicate id overwrites the value but keeps the first
occurrence's position in iteration order. -/
def buildJsMap (ns : List Node) : List (String × Node) :=
  ns.foldl (fun m n => jsInsert m n.id n) []

/-- The loop of `mergeNodes` over the existing nodes, threading the map of
still-unconsumed updated nodes: skip removed ids, replace id-matches in place
(consuming the map entry), keep the rest. -/
def mergeLoop :
    List Node → List (String × Node) → List String → List Node × List (String × Node)
  | [], m, _ => ([], m)
  | n :: rest, m, removed =>
    if n.id ∈ removed then
      mergeLoop rest m removed
    else
      match alGet m n.id with
      | some u =>
        let r := mergeLoop rest (jsDelete m n.id) removed
        (u :: r.1, r.2)
      | none =>
        let r := mergeLoop rest m removed
        (n :: r.1, r.2)

/-- `mergeNodes(existingNodes, updatedNodes, nodeIdsToRemove)` from
OvalNode.tsx lines 95-126 (identical in useGraphStream.ts): existing nodes in
order with removed ids skipped and id-matches replaced in place, then the
remaining (unconsumed) updated nodes appended in map iteration order. -/
def mergeNodes (existing updated : List Node) (removed : List String) :
    List Node :=
  (mergeLoop existing (buildJsMap updated) removed).1 ++
    (mergeLoop existing (buildJsMap updated) removed).2.map (fun p => p.2)

/-- The observable effect of building a JS map keyed by id and reading it back:
for each id only the last occurrence survives, at the first occurrence's
position. -/
def jsDedupById (ns : List Node) : List Node :=
  (buildJsMap ns).map (fun p => p.2)

/-- Whether some non-removed existing node carries id `k` (such an id's map
entry is consumed as an in-place replacement by the merge loop). -/
def consumedBy (existing : List Node) (removed : List String) (k : String) :
    Bool :=
  existing.any (fun e => e.id = k ∧ ¬ e.id ∈ removed)

/-- Keys of an association list. -/
def keysOf {α : Type} (m : List (String × α)) : List String :=
  m.map (fun p => p.1)

/-- The JS-map insertion fold, from an arbitrary initial map. -/
def foldIns (m0 : List (String × Node)) (ns : List Node) :
    List (String × Node) :=
  ns.foldl (fun m n => jsInsert m n.id n) m0

/- ## Edges event (OvalNode.tsx lines 309-353, useGraphStream onEdgesSet) -/

/-- Marker normalization applied to every incoming edge: lowercase the
`markerEnd.type` when present. -/
def normalizeEdge (e : Edge) : Edge :=
  { e with markerEnd := e.markerEnd.map String.toLower }

/-- The edges-event state transition on the accumulated `streamedEdges`: in
update mode an empty incoming list is ignored, otherwise the normalized
incoming list fully replaces the accumulator. -/
def edgesEventStep (mode : Mode) (streamed incoming : List Edge) : List Edge :=
  let normalized := incoming.map normalizeEdge
  if mode = Mode.update ∧ normalized = [] then streamed else normalized

/-- The edge list actually handed to the renderer after an event: create mode
shows the accumulator verbatim; update mode falls back to the pre-stream edges
while the accumulator is still empty. -/
def materializedEdges (mode : Mode) (streamed current : List Edge) :
    List Edge :=
  match mode with
  | Mode.create => streamed
  | Mode.update => if streamed = [] then current else streamed

/- ## Client-side record framer (OvalNode.tsx lines 222-261) -/

/-- State of the client framer: the partial-JSON accumulation buffer and the
running brace/bracket count. -/
structure FramerState where
  buffer : String
  count : Int
deriving DecidableEq

/-- Strip the `data: ` prefix from an SSE line, as the client does. -/
def stripData (line : String) : String :=
  if line.startsWith dataTag then line.drop 6 else line

/-- The per-character count update of the client framer: `{` and `[` increment,
`}` and `]` decrement, every other character — string quotes and escapes
included — is ignored. -/
def braceDelta (s : String) : Int :=
  s.foldl
    (fun acc c =>
      if c = lbraceC ∨ c = lbrackC then acc + 1
      else if c = rbraceC ∨ c = rbrackC then acc - 1
      else acc)
    0

/-- Processing of one line by the client framer: skip blank lines, skip
non-JSON-looking lines while the buffer is empty, otherwise accumulate and,
exactly when the running count reaches zero, reset the state and hand the
buffered record to `JSON.parse` (the returned `Option String` is the record
whose decode is attempted; a failed decode is simply dropped by the caller). -/
def processLine (s : FramerState) (line : String) : FramerState × Option String :=
  let content := stripData line
  if content.trim = "" then (s, none)
  else if s.buffer = "" ∧ ¬ content.startsWith lbraceS then (s, none)
  else
    let buf := s.buffer ++ content
    let cnt := s.count + braceDelta content
    if cnt = 0 then (⟨"", 0⟩, some buf)
    else (⟨buf, cnt⟩, none)

/-- Process a list of lines, collecting every record whose decode is
attempted. -/
def processLines (s : FramerState) : List String → FramerState × List String
  | [] => (s, [])
  | l :: rest =>
    let r := processLine s l
    let r' := processLines r.1 rest
    (r'.1, r.2.toList ++ r'.2)

/-- Process one transport chunk: the client splits it on newlines and feeds
each line to the framer, so state carries across chunk boundaries. -/
def processChunk (s : FramerState) (chunk : String) :
    FramerState × List String :=
  processLines s (chunk.splitOn newlineS)

/- ## Server-side scanner (index.ts lines 286-361) -/

/-- One character step of the server framer's nesting scan:
(braceDepth, bracketDepth, inString, escapeNext), updating the string state
first (honoring backslash escapes) and counting brackets only outside
strings. -/
def scanStep (st : Int × Int × Bool × Bool) (c : Char) : Int × Int × Bool × Bool :=
  let bd := st.1
  let kd := st.2.1
  let inStr := st.2.2.1
  let esc := st.2.2.2
  let inStr' := if c = quoteC ∧ ¬ esc then ¬ inStr else inStr
  let esc' := c = backslashC ∧ ¬ esc
  if ¬ inStr' then
    let bd' := if c = lbraceC then bd + 1 else if c = rbraceC then bd - 1 else bd
    let kd' := if c = lbrackC then kd + 1 else if c = rbrackC then kd - 1 else kd
    (bd', kd', inStr', esc')
  else
    (bd, kd, inStr', esc')

/-- The server framer's string-aware nesting state after scanning a string. -/
def scanNesting (s : String) : Int × Int × Bool × Bool :=
  s.foldl scanStep (0, 0, false, false)

/- ## Layout engine (autoLayout.ts) -/

/-- Layout configuration (the `LayoutParams` interface). -/
structure LayoutParams where
  name : String
  centerX : Rat
  verticalGap : Rat
  branchOffset : Rat
  subgraphGap : Rat
deriving DecidableEq

/-- The record returned by `getLayoutedElements`. -/
structure LayoutResult where
  nodes : List Node
  edges : List Edge
  presetName : String
deriving DecidableEq

def CENTER_X : Rat := 300

def BRANCH_OFFSET : Rat := 200

def SUBGRAPH_GAP : Rat := 150

def VERTICAL_GAP : Rat := 60

def defaultName : String := "Default"

/-- JS `type || "default"`: `undefined` and the empty string are falsy. -/
def orDefaultType (t : Option String) : String :=
  match t with
  | none => defaultS
  | some s => if s = "" then defaultS else s

/-- `NODE_WIDTHS[type || "default"] ?? 180`. -/
def getNodeWidth (t : Option String) : Rat :=
  let key := orDefaultType t
  if key = defaultS then 150
  else if key = diamondS then 160
  else if key = ovalS then 160
  else 180

/-- `NODE_HEIGHTS[type || "default"] ?? 50`. -/
def getNodeHeight (t : Option String) : Rat :=
  let key := orDefaultType t
  if key = defaultS then 50
  else if key = diamondS then 160
  else if key = ovalS then 45
  else 50

/-- `isLoopBack` (autoLayout.ts lines 364-371): resolve both endpoints among
the nodes; a missing endpoint means not loop-back; otherwise compare the prior
y positions strictly. -/
def isLoopBack (edge : Edge) (nodes : List Node) : Bool :=
  match nodes.find? (fun n => n.id = edge.source),
        nodes.find? (fun n => n.id = edge.target) with
  | some sourceNode, some targetNode =>
    targetNode.position.y < sourceNode.position.y
  | _, _ => false

/-- The leveling adjacency (`forwardEdges`, lines 72-74): drop edges typed
`selfConnecting` and edges classified loop-back. -/
def forwardEdgesOf (nodes : List Node) (edges : List Edge) : List Edge :=
  edges.filter (fun e => ¬ e.type = some selfConnectingS ∧ isLoopBack e nodes = false)

/-- `childrenOf` built from the forward edges, read back as a function. -/
def childrenOf (es : List Edge) (id : String) : List String :=
  (es.filter (fun e => e.source = id)).map (fun e => e.target)

/-- `parentOf` built from the forward edges, read back as a function. -/
def parentOf (es : List Edge) (id : String) : List String :=
  (es.filter (fun e => e.target = id)).map (fun e => e.source)

/- ### Union-find (findSubgraphs, lines 133-174)

The parent table is `Option String → Option String`: `Map.get` of an absent
key yields `undefined` (`none`), and the source's `find`/`union` recurse on
those `undefined` values and can even store entries under the `undefined` key,
so the sentinel is part of the key space. -/

/-- Iterative-in-spirit `find` with path compression, fueled.  Mirrors
`find(id) { if (parent.get(id) !== id) parent.set(id, find(parent.get(id)));
return parent.get(id); }`. -/
def ufFind : Nat → (Option String → Option String) → Option String →
    Option String × (Option String → Option String)
  | 0, p, k => (p k, p)
  | fuel + 1, p, k =>
    if p k = k then (p k, p)
    else
      let r := ufFind fuel p (p k)
      (r.1, fun k' => if k' = k then r.1 else r.2 k')

/-- `union(a, b)`: link root of `a` under root of `b` when they differ. -/
def ufUnion (fuel : Nat) (p : Option String → Option String)
    (a b : Option String) : Option String → Option String :=
  let ra := ufFind fuel p a
  let rb := ufFind fuel ra.2 b
  if ra.1 = rb.1 then rb.2 else fun k => if k = ra.1 then rb.1 else rb.2 k

/-- `groups.get(root).add(node.id)` with JS Map insertion order: extend the
root's group in place, or append a new group. -/
def addGroup (gs : List (Option String × List String)) (root : Option String)
    (id : String) : List (Option String × List String) :=
  if gs.any (fun g => g.1 = root) then
    gs.map (fun g => if g.1 = root then (g.1, g.2 ++ [id]) else g)
  else
    gs ++ [(root, [id])]

/-- The grouping loop of `findSubgraphs`: one `find` per node, threading the
(compressing) parent table. -/
def groupGo (fuel : Nat) :
    List Node → (Option String → Option String) →
    List (Option String × List String) → List (Option String × List String)
  | [], _, gs => gs
  | n :: rest, p, gs =>
    let r := ufFind fuel p (some n.id)
    groupGo fuel rest r.2 (addGroup gs r.1 n.id)

/-- `findSubgraphs(nodes, edges)`: initialize every node as its own parent,
union across the edges (endpoints need not be nodes), then group the nodes by
root.  The fuel over-approximates the longest parent chain the source can
build from this input. -/
def findSubgraphs (nodes : List Node) (edges : List Edge) : List (List String) :=
  let fuel := nodes.length + 2 * edges.length + 3
  let p0 : Option String → Option String := fun k =>
    match k with
    | some s => if nodes.any (fun n => n.id = s) then some s else none
    | none => none
  let p1 := edges.foldl (fun p e => ufUnion fuel p (some e.source) (some e.target)) p0
  (groupGo fuel nodes p1 []).map (fun g => g.2)

/- ### Level assignment and coordinates (layoutSubgraph, lines 179-359) -/

/-- The BFS loop assigning levels (lines 208-226): pop, skip visited, record
`max(previous, level)`, enqueue unvisited in-island children. -/
def bfsGo (subIds : List String) (childrenF : String → List String) :
    Nat → List (String × Nat) → List String → List (String × Nat) →
    List (String × Nat)
  | 0, _, _, levels => levels
  | fuel + 1, queue, visited, levels =>
    match queue with
    | [] => levels
    | (id, level) :: qrest =>
      if visited.contains id then bfsGo subIds childrenF fuel qrest visited levels
      else
        let visited' := id :: visited
        let prev := (alGet levels id).getD 0
        let levels' := jsInsert levels id (max prev level)
        let children := (childrenF id).filter (fun c => subIds.contains c)
        let enqueue :=
          (children.filter (fun c => ¬ visited'.contains c = true)).map
            (fun c => (c, level + 1))
        bfsGo subIds childrenF fuel (qrest ++ enqueue) visited' levels'

/-- `nodeLevel.get(id) ?? 0`. -/
def levelOfL (levels : List (String × Nat)) (id : String) : Nat :=
  (alGet levels id).getD 0

/-- The BFS level table of one island, started from `startId`. -/
def coreLevels (startId : String) (nodes : List Node) (fE : List Edge) :
    List (String × Nat) :=
  let subIds := nodes.map (fun n => n.id)
  let fuel := (nodes.length + 1) * (fE.length + 1) + 1
  bfsGo subIds (childrenOf fE) fuel [(startId, 0)] [] []

/-- `levelNodes.get(l)`: the island nodes at level `l`, in node-list order. -/
def bucketAt (levels : List (String × Nat)) (nodes : List Node) (l : Nat) :
    List Node :=
  nodes.filter (fun n => levelOfL levels n.id = l)

/-- `maxNodesAtLevel` (lines 238-241): the largest bucket size, at least 1. -/
def maxNodesAt (levels : List (String × Nat)) (nodes : List Node) : Nat :=
  ((nodes.map (fun n => levelOfL levels n.id)).eraseDups).foldl
    (fun a l => max a (bucketAt levels nodes l).length) 1

/-- `maxNodesAtLevel` of the island laid out from `startId`. -/
def maxNodesAtLevelOf (startId : String) (nodes : List Node) (fE : List Edge) :
    Nat :=
  maxNodesAt (coreLevels startId nodes fE) nodes

/-- The tallest dimension-table height in one bucket (0 when empty). -/
def maxHeightAt (levels : List (String × Nat)) (nodes : List Node) (l : Nat) :
    Rat :=
  (bucketAt levels nodes l).foldl (fun a n => max a (getNodeHeight n.type)) 0

/-- Cumulative level y: level 0 at 0, each next level after the previous
level's tallest node plus the vertical gap (lines 248-265). -/
def yAt (levels : List (String × Nat)) (nodes : List Node) (vg : Rat) :
    Nat → Rat
  | 0 => 0
  | l + 1 => yAt levels nodes vg l + maxHeightAt levels nodes l + vg

/-- `levelY.get(level) ?? 0`: the table only holds levels up to the maximum
assigned level. -/
def levelYget (levels : List (String × Nat)) (nodes : List Node) (vg : Rat)
    (l : Nat) : Rat :=
  if l ≤ (levels.map (fun p => p.2)).foldl (fun a b => max a b) 0 then
    yAt levels nodes vg l
  else 0

/-- First index of a node in a bucket (`nodesAtLevel.indexOf(node)`). -/
def idxOfNode : List Node → Node → Nat
  | [], _ => 0
  | x :: r, n => if x = n then 0 else idxOfNode r n + 1

/-- The horizontal placement of one node (lines 285-337), returning
`(position.x, visualCenterX)`: singletons align with an off-spine single
parent or average multiple parents, pairs sit at `centerX ± branchOffset`,
larger levels spread evenly. -/
def posStep (parentsIn : String → List String) (npos : List (String × Rat))
    (centerX bo w : Rat) (nodeIndex nodeCount : Nat) (nid : String) :
    Rat × Rat :=
  if nodeCount = 1 then
    match parentsIn nid with
    | [] => (centerX - w / 2, centerX)
    | [p] =>
      match alGet npos p with
      | some px =>
        if abs (px - centerX) > 50 then (px - w / 2, px)
        else (centerX - w / 2, centerX)
      | none => (centerX - w / 2, centerX)
    | ps =>
      let pxs := ps.filterMap (alGet npos)
      if 0 < pxs.length then
        let m := pxs.foldl (fun a b => a + b) 0 / (pxs.length : Rat)
        (m - w / 2, m)
      else (centerX - w / 2, centerX)
  else if nodeCount = 2 then
    let x := if nodeIndex = 0 then centerX - bo - w / 2 else centerX + bo - w / 2
    (x, x + w / 2)
  else
    let totalSpan := ((nodeCount : Rat) - 1) * bo
    let levelStartX := centerX - totalSpan / 2
    let x := levelStartX + (nodeIndex : Rat) * bo - w / 2
    (x, x + w / 2)

/-- The positioning pass (lines 278-354): map the island's nodes in order to
repositioned copies, threading `nodePositions` so children can look up the
visual center of already-placed parents. -/
def posPass (levelOfF : String → Nat) (bucketOf : Nat → List Node)
    (parentsIn : String → List String) (yOf : Nat → Rat) (centerX bo : Rat) :
    List Node → List (String × Rat) → List Node
  | [], _ => []
  | node :: rest, npos =>
    let level := levelOfF node.id
    let bucket := bucketOf level
    let r := posStep parentsIn npos centerX bo (getNodeWidth node.type)
        (idxOfNode bucket node) bucket.length node.id
    { node with position := ⟨r.1, yOf level⟩ } ::
      posPass levelOfF bucketOf parentsIn yOf centerX bo rest
        (jsInsert npos node.id r.2)

/-- The non-degenerate path of `layoutSubgraph`, from a found start node:
BFS levels, bucket grouping, island width, cumulative ys, positioning pass. -/
def layoutSubgraphCore (startNode : Node) (nodes : List Node) (fE : List Edge)
    (startX vg bo : Rat) : List Node × Rat :=
  let subIds := nodes.map (fun n => n.id)
  let levels := coreLevels startNode.id nodes fE
  let subgraphWidth := max 400 (((maxNodesAt levels nodes : Rat) - 1) * bo + 200)
  let parentsIn := fun id => (parentOf fE id).filter (fun p => subIds.contains p)
  let layouted := posPass (levelOfL levels) (bucketAt levels nodes) parentsIn
      (levelYget levels nodes vg) startX bo nodes []
  (layouted, subgraphWidth)

/-- `layoutSubgraph(nodes, edges, childrenOf, parentOf, startX, ...)` (lines
179-359).  `edges` are the island's internal edges (used only to find a start
node); `fE` are the global forward edges the children/parents maps were built
from.  With no start candidate the island's prior positions are returned
shifted horizontally by `startX`, with width 400. -/
def layoutSubgraph (nodes : List Node) (edges fE : List Edge)
    (startX vg bo : Rat) : List Node × Rat :=
  if nodes.isEmpty then ([], 0)
  else
    let allTargets := edges.map (fun e => e.target)
    match nodes.find? (fun n => ¬ allTargets.contains n.id = true) with
    | none =>
      (nodes.map (fun n =>
        { n with position := ⟨n.position.x + startX, n.position.y⟩ }), 400)
    | some startNode => layoutSubgraphCore startNode nodes fE startX vg bo

/-- The nodes of one island, in node-list order. -/
def subNodesFor (nodes : List Node) (ids : List String) : List Node :=
  nodes.filter (fun n => ids.contains n.id)

/-- The edges internal to one island. -/
def subEdgesFor (fE : List Edge) (ids : List String) : List Edge :=
  fE.filter (fun e => ids.contains e.source ∧ ids.contains e.target)

/-- The island packing loop of `getLayoutedElements` (lines 93-125), also
recording the center handed to each island: the first island is centered at
`centerX`; every later island at `nextSubgraphStart + 200`, where
`nextSubgraphStart` starts at `centerX + 300` and grows by the laid-out
island's width plus `subgraphGap` after each non-first island. -/
def packGo (nodes : List Node) (fE : List Edge) (vg bo sg centerX : Rat) :
    List (List String) → Rat → Bool → List Node × List Rat
  | [], _, _ => ([], [])
  | ids :: rest, nextStart, isFirst =>
    let subNodes := subNodesFor nodes ids
    let subEdges := subEdgesFor fE ids
    let cx := if isFirst then centerX else nextStart + 200
    let r := layoutSubgraph subNodes subEdges fE cx vg bo
    let next' := if isFirst then nextStart else nextStart + r.2 + sg
    let rest' := packGo nodes fE vg bo sg centerX rest next' false
    (r.1 ++ rest'.1, cx :: rest'.2)

/-- `getLayoutedElements(nodes, edges, direction, params)` (lines 54-128):
resolve parameters with defaults; an empty node list returns empty nodes and
empty edges; otherwise filter forward edges, partition into islands, lay each
out and pack left to right; the input edges are returned verbatim. -/
def getLayoutedElements (nodes : List Node) (edges : List Edge)
    (params : Option LayoutParams) : LayoutResult :=
  let centerX := (params.map (fun p => p.centerX)).getD CENTER_X
  let verticalGap := (params.map (fun p => p.verticalGap)).getD VERTICAL_GAP
  let branchOffset := (params.map (fun p => p.branchOffset)).getD BRANCH_OFFSET
  let subgraphGap := (params.map (fun p => p.subgraphGap)).getD SUBGRAPH_GAP
  let presetName := (params.map (fun p => p.name)).getD defaultName
  if nodes.isEmpty then ⟨[], [], presetName⟩
  else
    let fE := forwardEdgesOf nodes edges
    let subgraphs := findSubgraphs nodes fE
    let r := packGo nodes fE verticalGap branchOffset subgraphGap centerX
        subgraphs (centerX + 300) true
    ⟨r.1, edges, presetName⟩

/-- The observable sequence of island centers used by the packing loop, for
the same inputs as `getLayoutedElements`. -/
def islandCenters (nodes : List Node) (edges : List Edge)
    (params : Option LayoutParams) : List Rat :=
  let centerX := (params.map (fun p => p.centerX)).getD CENTER_X
  let verticalGap := (params.map (fun p => p.verticalGap)).getD VERTICAL_GAP
  let branchOffset := (params.map (fun p => p.branchOffset)).getD BRANCH_OFFSET
  let subgraphGap := (params.map (fun p => p.subgraphGap)).getD SUBGRAPH_GAP
  if nodes.isEmpty then []
  else
    let fE := forwardEdgesOf nodes edges
    let subgraphs := findSubgraphs nodes fE
    (packGo nodes fE verticalGap branchOffset subgraphGap centerX
        subgraphs (centerX + 300) true).2

/-- The width `layoutSubgraph` computes for one island; the width does not
depend on the island's center, so it is read off at center 0. -/
def islandWidth (nodes : List Node) (fE : List Edge) (vg bo : Rat)
    (ids : List String) : Rat :=
  (layoutSubgraph (subNodesFor nodes ids) (subEdgesFor fE ids) fE 0 vg bo).2

/- ## Concrete fixtures used by the claim instances -/

/-- The five-node end-to-end example: oval start node. -/
def n1 : Node := ⟨"1", some ovalS, ⟨0, 0⟩, ⟨"Start", none, none, none⟩⟩

def n2 : Node := ⟨"2", some defaultS, ⟨0, 0⟩, ⟨"Step", none, none, none⟩⟩

def n3 : Node := ⟨"3", some diamondS, ⟨0, 0⟩, ⟨"Decide", none, none, some 2⟩⟩

def n4 : Node := ⟨"4", some defaultS, ⟨0, 0⟩, ⟨"Left", none, none, none⟩⟩

def n5 : Node := ⟨"5", some defaultS, ⟨0, 0⟩, ⟨"Right", none, none, none⟩⟩

def e12 : Edge := ⟨"e12", "1", "2", none, none, none, none, none⟩

def e23 : Edge := ⟨"e23", "2", "3", none, none, none, none, none⟩

def e34 : Edge := ⟨"e34", "3", "4", none, some "left", none, none, none⟩

def e35 : Edge := ⟨"e35", "3", "5", none, some "right", none, none, none⟩

/-- The layout parameters of the end-to-end example. -/
def prms : LayoutParams := ⟨defaultName, 300, 60, 200, 300⟩

/-- Two disconnected default nodes with prior position (0,0). -/
def na : Node := ⟨"a", none, ⟨0, 0⟩, ⟨"a", none, none, none⟩⟩

def nb : Node := ⟨"b", none, ⟨0, 0⟩, ⟨"b", none, none, none⟩⟩

def nc : Node := ⟨"c", none, ⟨0, 0⟩, ⟨"c", none, none, none⟩⟩

/-- An edge from node `a` to the dangling id `X`. -/
def eaX : Edge := ⟨"e1", "a", "X", none, none, none, none, none⟩

/-- An edge from node `b` to the dangling id `Y`. -/
def ebY : Edge := ⟨"e2", "b", "Y", none, none, none, none, none⟩

/-- A two-node cycle at equal prior ys (so neither edge is loop-back). -/
def ca : Node := ⟨"a", none, ⟨0, 0⟩, ⟨"a", none, none, none⟩⟩

def cb : Node := ⟨"b", none, ⟨5, 0⟩, ⟨"b", none, none, none⟩⟩

def eab : Edge := ⟨"eab", "a", "b", none, none, none, none, none⟩

def eba : Edge := ⟨"eba", "b", "a", none, none, none, none, none⟩

/-- A self-loop whose `type` is not `selfConnecting`. -/
def eSelf : Edge := ⟨"es", "a", "a", none, none, none, none, none⟩

/-- A plain edge used to probe the empty-node-list layout call. -/
def e9 : Edge := ⟨"e9", "p", "q", none, none, none, none, none⟩

/-- Merge fixtures: nodes distinguished by label, keyed by lowercase ids. -/
def mA : Node := ⟨"a", none, ⟨0, 0⟩, ⟨"A", none, none, none⟩⟩

def mB : Node := ⟨"b", none, ⟨0, 0⟩, ⟨"B", none, none, none⟩⟩

def mB2 : Node := ⟨"b", none, ⟨0, 0⟩, ⟨"B2", none, none, none⟩⟩

def mC : Node := ⟨"c", none, ⟨0, 0⟩, ⟨"C", none, none, none⟩⟩

def mC2 : Node := ⟨"c", none, ⟨0, 0⟩, ⟨"C2", none, none, none⟩⟩

def mD1 : Node := ⟨"d", none, ⟨0, 0⟩, ⟨"D1", none, none, none⟩⟩

def mD2 : Node := ⟨"d", none, ⟨0, 0⟩, ⟨"D2", none, none, none⟩⟩

/-- The record with a closing brace inside a string literal: the characters
of the valid JSON text whose display form is lbrace "a" colon "rbrace" rbrace. -/
def trickyLine : String :=
  String.mk [lbraceC, quoteC, 'a', quoteC, ':', quoteC, rbraceC, quoteC, rbraceC]

/-- A brace-balanced complete record following the tricky one. -/
def completeLine : String :=
  String.mk [lbraceC, quoteC, 'b', quoteC, ':', '1', rbraceC]

/- ## Claim C1 -/

/-- C1 (confirmed): on the five-node input — oval 1, default 2, diamond 3
with outputCount 2, defaults 4 and 5, edges 1→2, 2→3, 3→4 (handle left),
3→5 (handle right), all prior positions (0,0), centerX 300, branchOffset 200,
verticalGap 60 — the layout returns positions (220,0), (225,105), (220,215),
(25,435), (425,435). -/
theorem claim_C1 :
    ((getLayoutedElements [n1, n2, n3, n4, n5] [e12, e23, e34, e35]
        (some prms)).nodes.map
      (fun n => (n.id, n.position.x, n.position.y))) =
    [("1", 220, 0), ("2", 225, 105), ("3", 220, 215), ("4", 25, 435),
      ("5", 425, 435)] := by
  with_unfolding_all decide

/- ## Claim C2: counterexample -/

/-- C2 counterexample: the merge function, contrary to the claim, (i) does not
drop an upserted node whose id is in the removed set — merging [C] with [C2]
under removed id c yields [C2], not []; (ii) with a duplicated existing id it
replaces only the first occurrence — merging [B, B] with [B2] yields [B2, B],
not [B2, B2]; (iii) with a duplicated upserted id it appends the last
occurrence once — merging [] with [D1, D2] yields [D2], not [D1, D2]. -/
theorem claim_C2_counterexample :
    mergeNodes [mC] [mC2] ["c"] = [mC2] ∧ ¬ mergeNodes [mC] [mC2] ["c"] = [] ∧
    mergeNodes [mB, mB] [mB2] [] = [mB2, mB] ∧
    ¬ mergeNodes [mB, mB] [mB2] [] = [mB2, mB2] ∧
    mergeNodes [] [mD1, mD2] [] = [mD2] ∧
    ¬ mergeNodes [] [mD1, mD2] [] = [mD1, mD2] := by
  with_unfolding_all decide

/- ## Association-list lemmas for the merge proofs -/

theorem filterCongr {α : Type} (p q : α → Bool) :
    ∀ l : List α, (∀ a ∈ l, p a = q a) → l.filter p = l.filter q := by
  intro l
  induction l with
  | nil => intro _; rfl
  | cons a t ih =>
    intro h
    have ha := h a (by simp)
    simp only [List.filter_cons, ha, ih (fun b hb => h b (by simp [hb]))]

theorem filterMapCongr {α β : Type} (f g : α → Option β) :
    ∀ l : List α, (∀ a ∈ l, f a = g a) → l.filterMap f = l.filterMap g := by
  intro l
  induction l with
  | nil => intro _; rfl
  | cons a t ih =>
    intro h
    have ha := h a (by simp)
    simp only [List.filterMap_cons, ha, ih (fun b hb => h b (by simp [hb]))]

theorem alGet_append {α : Type} (m1 m2 : List (String × α)) (k : String) :
    alGet (m1 ++ m2) k =
      match alGet m1 k with
      | some v => some v
      | none => alGet m2 k := by
  induction m1 with
  | nil => simp [alGet]
  | cons p r ih =>
    by_cases hp : p.1 = k
    · simp [alGet, hp]
    · simp [alGet, hp, ih]

theorem alGet_eq_none_iff {α : Type} (m : List (String × α)) (k : String) :
    alGet m k = none ↔ ∀ p ∈ m, ¬ p.1 = k := by
  induction m with
  | nil => simp [alGet]
  | cons p r ih =>
    by_cases hp : p.1 = k
    · simp [alGet, hp]
    · simp [alGet, hp, ih]

theorem any_key_eq_false {α : Type} (m : List (String × α)) (k : String) :
    m.any (fun p => p.1 = k) = false ↔ ∀ p ∈ m, ¬ p.1 = k := by
  simp

theorem jsInsert_pos {α : Type} (m : List (String × α)) (k : String) (v : α)
    (h : m.any (fun p => p.1 = k) = true) :
    jsInsert m k v = m.map (fun p => if p.1 = k then (k, v) else p) := by
  unfold jsInsert
  simp [h]

theorem jsInsert_neg {α : Type} (m : List (String × α)) (k : String) (v : α)
    (h : m.any (fun p => p.1 = k) = false) :
    jsInsert m k v = m ++ [(k, v)] := by
  unfold jsInsert
  simp [h]

theorem alGet_map_replace {α : Type} (m : List (String × α)) (k : String)
    (v : α) (k' : String) :
    alGet (m.map (fun p => if p.1 = k then (k, v) else p)) k' =
      if k' = k ∧ m.any (fun p => p.1 = k) = true then some v
      else alGet m k' := by
  induction m with
  | nil => simp [alGet]
  | cons p r ih =>
    by_cases hp : p.1 = k
    · by_cases hk : k' = k
      · simp [alGet, hp, hk]
      · have hkk : ¬ k = k' := fun hh => hk hh.symm
        have hpk : ¬ p.1 = k' := by rw [hp]; exact hkk
        simp [alGet, hp, hk, hkk, hpk, ih]
    · by_cases hpk : p.1 = k'
      · have hkk : ¬ k' = k := by
          intro hh
          exact hp (by rw [hpk, hh])
        simp [alGet, hp, hpk, hkk]
      · have hd : (decide (p.1 = k)) = false := by simp [hp]
        have hL :
            alGet ((p :: r).map (fun p => if p.1 = k then (k, v) else p)) k' =
              alGet (r.map (fun p => if p.1 = k then (k, v) else p)) k' := by
          simp [alGet, hp, hpk]
        rw [hL, ih, List.any_cons, hd, Bool.false_or]
        simp [alGet, hpk]

theorem alGet_jsInsert {α : Type} (m : List (String × α)) (k k' : String)
    (v : α) :
    alGet (jsInsert m k v) k' = if k' = k then some v else alGet m k' := by
  cases hany : m.any (fun p => p.1 = k) with
  | true =>
    rw [jsInsert_pos m k v hany, alGet_map_replace]
    by_cases hk : k' = k <;> simp [hk, hany]
  | false =>
    have hnone : alGet m k = none :=
      (alGet_eq_none_iff m k).mpr ((any_key_eq_false m k).mp hany)
    rw [jsInsert_neg m k v hany, alGet_append]
    by_cases hk : k' = k
    · subst hk
      simp [hnone, alGet]
    · have hkk : ¬ k = k' := fun hh => hk hh.symm
      cases hg : alGet m k' <;> simp [alGet, hg, hkk, hk]

theorem alGet_jsDelete_ne {α : Type} (m : List (String × α)) (k k' : String)
    (h : ¬ k' = k) : alGet (jsDelete m k) k' = alGet m k' := by
  induction m with
  | nil => rfl
  | cons p r ih =>
    by_cases hp : p.1 = k
    · have hpk : ¬ p.1 = k' := by
        intro hh
        exact h (by rw [← hh, hp])
      have hstep : jsDelete (p :: r) k = jsDelete r k := by
        simp [jsDelete, List.filter_cons, hp]
      rw [hstep, ih]
      simp [alGet, hpk]
    · have hstep : jsDelete (p :: r) k = p :: jsDelete r k := by
        simp [jsDelete, List.filter_cons, hp]
      rw [hstep]
      by_cases hpk : p.1 = k'
      · simp [alGet, hpk]
      · simp [alGet, hpk, ih]

theorem keysOf_jsInsert_mem {α : Type} (m : List (String × α)) (k : String)
    (v : α) (h : m.any (fun p => p.1 = k) = true) :
    keysOf (jsInsert m k v) = keysOf m := by
  unfold jsInsert
  rw [if_pos h]
  unfold keysOf
  rw [List.map_map]
  refine List.map_congr_left ?_
  intro p _
  by_cases hp : p.1 = k <;> simp [hp]

theorem keysOf_jsInsert_notMem {α : Type} (m : List (String × α)) (k : String)
    (v : α) (h : m.any (fun p => p.1 = k) = false) :
    keysOf (jsInsert m k v) = keysOf m ++ [k] := by
  unfold jsInsert
  simp [h, keysOf]

theorem foldIns_nil (m0 : List (String × Node)) : foldIns m0 [] = m0 := rfl

theorem foldIns_cons (m0 : List (String × Node)) (n : Node) (ns : List Node) :
    foldIns m0 (n :: ns) = foldIns (jsInsert m0 n.id n) ns := rfl

theorem buildJsMap_eq_foldIns (ns : List Node) : buildJsMap ns = foldIns [] ns := rfl

theorem getLast?_cons_eq {α : Type} :
    ∀ (l : List α) (a : α),
      (a :: l).getLast? =
        match l.getLast? with
        | some u => some u
        | none => some a
  | [], _ => rfl
  | b :: t, a => by
    rw [List.getLast?_cons_cons, getLast?_cons_eq t b]
    cases t.getLast? <;> rfl

/-- Reading the insertion fold: the last occurrence of the key wins; absent
keys fall through to the initial map. -/
theorem alGet_foldIns (ns : List Node) :
    ∀ (m0 : List (String × Node)) (k : String),
      alGet (foldIns m0 ns) k =
        match (ns.filter (fun n => n.id = k)).getLast? with
        | some u => some u
        | none => alGet m0 k := by
  induction ns with
  | nil => intro m0 k; simp [foldIns]
  | cons n rest ih =>
    intro m0 k
    rw [foldIns_cons, ih]
    by_cases hk : n.id = k
    · have hfilter :
          (n :: rest).filter (fun n => n.id = k) =
            n :: rest.filter (fun n => n.id = k) := by
        simp [List.filter_cons, hk]
      rw [hfilter, getLast?_cons_eq]
      cases hlast : (rest.filter (fun n => n.id = k)).getLast? with
      | some u => simp
      | none => simp [alGet_jsInsert, hk]
    · have hfilter :
          (n :: rest).filter (fun n => n.id = k) =
            rest.filter (fun n => n.id = k) := by
        simp [List.filter_cons, hk]
      rw [hfilter]
      cases hlast : (rest.filter (fun n => n.id = k)).getLast? with
      | some u => simp
      | none =>
        have : ¬ k = n.id := fun h => hk h.symm
        simp [alGet_jsInsert, this]

/-- Every entry of the insertion fold is keyed by its node's id. -/
theorem foldIns_key_id (ns : List Node) :
    ∀ m0 : List (String × Node), (∀ p ∈ m0, p.1 = p.2.id) →
      ∀ p ∈ foldIns m0 ns, p.1 = p.2.id := by
  induction ns with
  | nil => intro m0 h; simpa [foldIns] using h
  | cons n rest ih =>
    intro m0 h
    rw [foldIns_cons]
    refine ih _ ?_
    intro p hp
    unfold jsInsert at hp
    by_cases hany : m0.any (fun p => p.1 = n.id) = true
    · rw [if_pos hany] at hp
      obtain ⟨q, hq, hqe⟩ := List.mem_map.mp hp
      by_cases hq1 : q.1 = n.id
      · rw [if_pos hq1] at hqe
        rw [← hqe]
      · rw [if_neg hq1] at hqe
        exact hqe ▸ h q hq
    · rw [if_neg hany] at hp
      rcases List.mem_append.mp hp with hm | hm
      · exact h p hm
      · simp at hm
        rw [hm]

/-- The keys of the insertion fold are pairwise distinct. -/
theorem foldIns_keys_nodup (ns : List Node) :
    ∀ m0 : List (String × Node), (keysOf m0).Nodup →
      (keysOf (foldIns m0 ns)).Nodup := by
  induction ns with
  | nil => intro m0 h; simpa [foldIns] using h
  | cons n rest ih =>
    intro m0 h
    rw [foldIns_cons]
    refine ih _ ?_
    cases hany : m0.any (fun p => p.1 = n.id) with
    | true => rw [keysOf_jsInsert_mem m0 n.id n hany]; exact h
    | false =>
      rw [keysOf_jsInsert_notMem m0 n.id n hany]
      have hnotin : n.id ∉ keysOf m0 := by
        intro hmem
        obtain ⟨p, hp, hpe⟩ := List.mem_map.mp hmem
        have := (any_key_eq_false m0 n.id).mp hany p hp
        exact this hpe
      simpa [List.nodup_append] using ⟨h, hnotin⟩

/-- Inserting nodes with pairwise-fresh distinct ids appends them in order. -/
theorem foldIns_fresh (ns : List Node) :
    ∀ m0 : List (String × Node),
      (ns.map (fun n => n.id)).Nodup →
      (∀ n ∈ ns, n.id ∉ keysOf m0) →
      foldIns m0 ns = m0 ++ ns.map (fun n => (n.id, n)) := by
  induction ns with
  | nil => intro m0 _ _; simp [foldIns]
  | cons n rest ih =>
    intro m0 hnodup hfresh
    rw [foldIns_cons]
    have hany : m0.any (fun p => p.1 = n.id) = false := by
      refine (any_key_eq_false m0 n.id).mpr ?_
      intro p hp hpe
      have hmem : n.id ∈ keysOf m0 := by
        unfold keysOf
        rw [← hpe]
        exact List.mem_map_of_mem _ hp
      exact hfresh n (by simp) hmem
    rw [jsInsert_neg m0 n.id n hany, ih]
    · simp
    · exact (List.nodup_cons.mp hnodup).2
    · intro b hb
      unfold keysOf
      rw [List.map_append]
      intro hmem
      rcases List.mem_append.mp hmem with hm | hm
      · exact hfresh b (by simp [hb]) hm
      · simp at hm
        have hbmem : b.id ∈ rest.map (fun n => n.id) := List.mem_map_of_mem _ hb
        rw [hm] at hbmem
        exact (List.nodup_cons.mp hnodup).1 hbmem

/-- Under distinct updated ids the JS map is just the paired list. -/
theorem buildJsMap_nodup (ns : List Node)
    (h : (ns.map (fun n => n.id)).Nodup) :
    buildJsMap ns = ns.map (fun n => (n.id, n)) := by
  rw [buildJsMap_eq_foldIns, foldIns_fresh ns [] h (by simp [keysOf])]
  simp

theorem alGet_map_pair (ns : List Node) (k : String) :
    alGet (ns.map (fun n => (n.id, n))) k = ns.find? (fun n => n.id = k) := by
  induction ns with
  | nil => rfl
  | cons n rest ih =>
    by_cases hk : n.id = k
    · simp [alGet, List.find?_cons, hk]
    · simp [alGet, List.find?_cons, hk, ih]

theorem filterFilter {α : Type} (p q : α → Bool) :
    ∀ l : List α, (l.filter p).filter q = l.filter (fun a => p a && q a) := by
  intro l
  induction l with
  | nil => rfl
  | cons a t ih =>
    cases hp : p a <;> cases hq : q a <;>
      simp [List.filter_cons, hp, hq, ih]

theorem map_pair_filter_snd (q : String → Bool) :
    ∀ ns : List Node,
      ((ns.map (fun n => (n.id, n))).filter (fun p => q p.1)).map
          (fun p => p.2) =
        ns.filter (fun n => q n.id) := by
  intro ns
  induction ns with
  | nil => rfl
  | cons n rest ih =>
    cases hq : q n.id <;> simp [List.filter_cons, hq, ih]

theorem buildJsMap_key_id (ns : List Node) :
    ∀ p ∈ buildJsMap ns, p.1 = p.2.id :=
  foldIns_key_id ns [] (by simp)

theorem buildJsMap_keys_nodup (ns : List Node) :
    (keysOf (buildJsMap ns)).Nodup := by
  rw [buildJsMap_eq_foldIns]
  exact foldIns_keys_nodup ns [] (by simp [keysOf])

theorem jsDedup_ids (ns : List Node) :
    (jsDedupById ns).map (fun n => n.id) = keysOf (buildJsMap ns) := by
  unfold jsDedupById keysOf
  rw [List.map_map]
  refine List.map_congr_left ?_
  intro p hp
  exact (buildJsMap_key_id ns p hp).symm

/-- Rebuilding the JS map from its deduplicated value list reproduces it. -/
theorem buildJsMap_dedup (ns : List Node) :
    buildJsMap (jsDedupById ns) = buildJsMap ns := by
  have hkey := buildJsMap_key_id ns
  have hnodup := buildJsMap_keys_nodup ns
  rw [buildJsMap_eq_foldIns,
    foldIns_fresh (jsDedupById ns) []
      (by rw [jsDedup_ids]; exact hnodup) (by simp [keysOf])]
  rw [List.nil_append]
  unfold jsDedupById
  rw [List.map_map]
  calc (buildJsMap ns).map (fun p => ((p.2).id, p.2)) =
      (buildJsMap ns).map id := by
        refine List.map_congr_left ?_
        intro p hp
        show (p.2.id, p.2) = p
        rw [← hkey p hp]
    _ = buildJsMap ns := List.map_id _

theorem find?_map_snd (m : List (String × Node)) (k : String)
    (hkey : ∀ p ∈ m, p.1 = p.2.id) :
    (m.map (fun p => p.2)).find? (fun n => n.id = k) = alGet m k := by
  induction m with
  | nil => rfl
  | cons p r ih =>
    have hp := hkey p (by simp)
    have ihr := ih (fun q hq => hkey q (by simp [hq]))
    by_cases hk : p.1 = k
    · have hk2 : p.2.id = k := by rw [← hp]; exact hk
      simp [alGet, hk, hk2]
    · have hk2 : ¬ p.2.id = k := by rw [← hp]; exact hk
      simp [alGet, hk, hk2, ihr]

/-- The characterization of the merge loop over a Nodup existing list: the
first component replaces non-removed id-matches in place (reading the original
map, since each id is consumed at most once) and drops removed ids; the second
component is the map restricted to un-consumed keys. -/
theorem mergeLoop_spec (removed : List String) :
    ∀ (existing : List Node) (m : List (String × Node)),
      (existing.map (fun n => n.id)).Nodup →
      mergeLoop existing m removed =
        (existing.filterMap (fun n =>
          if n.id ∈ removed then none
          else some ((alGet m n.id).getD n)),
         m.filter (fun p => consumedBy existing removed p.1 = false)) := by
  intro existing
  induction existing with
  | nil =>
    intro m _
    simp [mergeLoop, consumedBy]
  | cons n rest ih =>
    intro m hnodup
    have hrest := (List.nodup_cons.mp hnodup).2
    have hnotin := (List.nodup_cons.mp hnodup).1
    by_cases hr : n.id ∈ removed
    · have hstep : mergeLoop (n :: rest) m removed = mergeLoop rest m removed := by
        simp only [mergeLoop, if_pos hr]
      rw [hstep, ih m hrest]
      have h1 : (n :: rest).filterMap (fun e =>
            if e.id ∈ removed then none
            else some ((alGet m e.id).getD e)) =
          rest.filterMap (fun e =>
            if e.id ∈ removed then none
            else some ((alGet m e.id).getD e)) := by
        simp [List.filterMap_cons, hr]
      have h2 : m.filter (fun p => consumedBy (n :: rest) removed p.1 = false) =
          m.filter (fun p => consumedBy rest removed p.1 = false) := by
        refine filterCongr _ _ m ?_
        intro p _
        simp [consumedBy, hr]
      rw [h1, h2]
    · cases hget : alGet m n.id with
      | some u =>
        have hstep : mergeLoop (n :: rest) m removed =
            (u :: (mergeLoop rest (jsDelete m n.id) removed).1,
             (mergeLoop rest (jsDelete m n.id) removed).2) := by
          simp only [mergeLoop, if_neg hr, hget]
        rw [hstep, ih (jsDelete m n.id) hrest]
        simp only [Prod.mk.injEq]
        refine ⟨?_, ?_⟩
        · have h1a : (n :: rest).filterMap (fun e =>
                if e.id ∈ removed then none
                else some ((alGet m e.id).getD e)) =
              u :: rest.filterMap (fun e =>
                if e.id ∈ removed then none
                else some ((alGet m e.id).getD e)) := by
            simp [List.filterMap_cons, hr, hget]
          rw [h1a]
          congr 1
          refine filterMapCongr _ _ rest ?_
          intro e he
          by_cases hre : e.id ∈ removed
          · simp [hre]
          · have hne : ¬ e.id = n.id := by
              intro hh
              have hmem : e.id ∈ rest.map (fun x => x.id) :=
                List.mem_map_of_mem _ he
              rw [hh] at hmem
              exact hnotin hmem
            simp [hre, alGet_jsDelete_ne m n.id e.id hne]
        · unfold jsDelete
          rw [filterFilter]
          refine (filterCongr _ _ m ?_).symm
          intro p _
          by_cases hpn : p.1 = n.id
          · simp [consumedBy, hr, hpn]
          · have hnp : ¬ n.id = p.1 := fun hh => hpn hh.symm
            simp [consumedBy, hpn, hnp]
      | none =>
        have hstep : mergeLoop (n :: rest) m removed =
            (n :: (mergeLoop rest m removed).1,
             (mergeLoop rest m removed).2) := by
          simp only [mergeLoop, if_neg hr, hget]
        rw [hstep, ih m hrest]
        simp only [Prod.mk.injEq]
        refine ⟨?_, ?_⟩
        · have h1 : (n :: rest).filterMap (fun e =>
                if e.id ∈ removed then none
                else some ((alGet m e.id).getD e)) =
              n :: rest.filterMap (fun e =>
                if e.id ∈ removed then none
                else some ((alGet m e.id).getD e)) := by
            simp [List.filterMap_cons, hr, hget]
          rw [h1]
        · refine (filterCongr _ _ m ?_).symm
          intro p hp
          have hne : ¬ p.1 = n.id :=
            (alGet_eq_none_iff m n.id).mp hget p hp
          have hnp : ¬ n.id = p.1 := fun hh => hne hh.symm
          simp [consumedBy, hr, hnp]

/- ## Claim C10 -/

/-- C10 (confirmed): when the upserted list carries duplicate ids, only the
last occurrence with each id participates in the merge — merging with the
deduplicated list (`jsDedupById`, the JS-map value view) gives the same
result; the deduplicated list's entry for an id is exactly the last occurrence
with that id in the upserted list, and each id occurs at most once in it. -/
theorem claim_C10 :
    (∀ (existing updated : List Node) (removed : List String),
      mergeNodes existing updated removed =
        mergeNodes existing (jsDedupById updated) removed) ∧
    (∀ (updated : List Node) (k : String),
      (jsDedupById updated).find? (fun n => n.id = k) =
        (updated.filter (fun n => n.id = k)).getLast?) ∧
    (∀ updated : List Node,
      ((jsDedupById updated).map (fun n => n.id)).Nodup) := by
  refine ⟨fun existing updated removed => ?_, fun updated k => ?_,
    fun updated => ?_⟩
  · unfold mergeNodes
    rw [buildJsMap_dedup]
  · unfold jsDedupById
    rw [find?_map_snd (buildJsMap updated) k (buildJsMap_key_id updated),
      buildJsMap_eq_foldIns, alGet_foldIns]
    cases (updated.filter (fun n => n.id = k)).getLast? <;> rfl
  · rw [jsDedup_ids]
    exact buildJsMap_keys_nodup updated

/- ## Claim C2: amended theorem -/

/-- C2 (amended): when the existing ids and the upserted ids are each
pairwise distinct, the merge returns the existing nodes in order with
non-removed id-matches replaced in place and existing nodes with removed ids
dropped, followed by exactly those upserted nodes whose id does not match any
non-removed existing node, in arrival order.  In particular the removed-id
set drops only existing nodes: an upserted node whose id is in the removed
set is still appended (see the counterexample), and
merge([A,B,C],[B2,D],c) = [A,B2,D] while merge(existing, [], {}) = existing. -/
theorem claim_C2_amended :
    ∀ (existing updated : List Node) (removed : List String),
      (existing.map (fun n => n.id)).Nodup →
      (updated.map (fun n => n.id)).Nodup →
      mergeNodes existing updated removed =
        existing.filterMap (fun n =>
          if n.id ∈ removed then none
          else some ((updated.find? (fun u => u.id = n.id)).getD n)) ++
        updated.filter (fun u => consumedBy existing removed u.id = false) := by
  intro existing updated removed hex hup
  unfold mergeNodes
  rw [buildJsMap_nodup updated hup,
    mergeLoop_spec removed existing (updated.map (fun n => (n.id, n))) hex]
  dsimp only
  congr 1
  · refine filterMapCongr _ _ existing ?_
    intro n _
    rw [alGet_map_pair]
  · exact map_pair_filter_snd
      (fun k => decide (consumedBy existing removed k = false)) updated

/-- C2 witness: the claim's own ordering example — merging existing [A,B,C]
with upserts [B2,D] under removed id c yields [A,B2,D]. -/
theorem claim_C2_witness :
    mergeNodes [mA, mB, mC] [mB2, mD1] ["c"] = [mA, mB2, mD1] :=
  (claim_C2_amended [mA, mB, mC] [mB2, mD1] ["c"] (by decide)
    (by decide)).trans (by decide)

/- ## Claim C3 -/

/-- C3 (confirmed): an empty edges event in update mode is ignored — the
accumulated and the materialized edges are unchanged; the same empty event in
create mode replaces the edge set, yielding zero edges; a non-empty edges
event fully replaces the edge set in either mode (up to the marker-case
normalization applied to each incoming edge), independently of the previous
accumulator. -/
theorem claim_C3 :
    (∀ streamed current : List Edge,
      edgesEventStep Mode.update streamed [] = streamed ∧
      materializedEdges Mode.update (edgesEventStep Mode.update streamed [])
          current =
        materializedEdges Mode.update streamed current) ∧
    (∀ streamed current : List Edge,
      edgesEventStep Mode.create streamed [] = [] ∧
      materializedEdges Mode.create (edgesEventStep Mode.create streamed [])
          current = []) ∧
    (∀ (mode : Mode) (s s' current incoming : List Edge), ¬ incoming = [] →
      edgesEventStep mode s incoming = incoming.map normalizeEdge ∧
      edgesEventStep mode s incoming = edgesEventStep mode s' incoming ∧
      materializedEdges mode (edgesEventStep mode s incoming) current =
        incoming.map normalizeEdge) := by
  refine ⟨fun streamed current => ⟨?_, ?_⟩, fun streamed current => ⟨?_, ?_⟩,
    fun mode s s' current incoming h => ?_⟩
  · simp [edgesEventStep]
  · simp [edgesEventStep]
  · simp [edgesEventStep]
  · simp [edgesEventStep, materializedEdges]
  · have hn : ¬ incoming.map normalizeEdge = [] := by
      simpa using h
    cases mode <;>
      simp [edgesEventStep, materializedEdges, hn]

/-- C3 witness: a one-edge event in update mode replaces a non-empty
accumulator. -/
theorem claim_C3_witness :
    edgesEventStep Mode.update [e12] [e23] = [e23].map normalizeEdge :=
  (claim_C3.2.2 Mode.update [e12] [e34] [e35] [e23] (by decide)).1

/- ## Claim C4: counterexample -/

/-- C4 counterexample: on the valid one-line record
lbrace "a" colon quote rbrace quote rbrace (a closing brace inside a string
literal) the server-side scanner confirms that nesting returns to zero outside
a string with escapes honored, yet the client framer of OvalNode.tsx attempts
no decode there — it counts the in-string brace, ends the line at count −1, and
then also swallows the following complete record, losing more than the one
malformed record. -/
theorem claim_C4_counterexample :
    scanNesting trickyLine = (0, 0, false, false) ∧
    (processLine ⟨"", 0⟩ trickyLine).2 = none ∧
    (processLine ⟨"", 0⟩ trickyLine).1.count = -1 ∧
    (processLines ⟨"", 0⟩ [trickyLine, completeLine]).2 = [] ∧
    ¬ (processLines ⟨"", 0⟩ [completeLine]).2 = [] := by
  with_unfolding_all decide

/- ## Framer lemmas -/

theorem processLine_blank (s : FramerState) (line : String)
    (h : (stripData line).trim = "") : processLine s line = (s, none) := by
  simp [processLine, h]

theorem processLine_skip (s : FramerState) (line : String)
    (h1 : ¬ (stripData line).trim = "") (h2 : s.buffer = "")
    (h3 : ¬ (stripData line).startsWith lbraceS = true) :
    processLine s line = (s, none) := by
  simp [processLine, h1, h2, h3]

theorem processLine_acc (s : FramerState) (line : String)
    (h1 : ¬ (stripData line).trim = "")
    (h2 : ¬ (s.buffer = "" ∧ ¬ (stripData line).startsWith lbraceS = true)) :
    processLine s line =
      if s.count + braceDelta (stripData line) = 0 then
        (⟨"", 0⟩, some (s.buffer ++ stripData line))
      else
        (⟨s.buffer ++ stripData line,
          s.count + braceDelta (stripData line)⟩, none) := by
  simp only [processLine]
  rw [if_neg h1, if_neg h2]

theorem processLines_cons (s : FramerState) (l : String) (rest : List String) :
    processLines s (l :: rest) =
      ((processLines (processLine s l).1 rest).1,
       (processLine s l).2.toList ++ (processLines (processLine s l).1 rest).2) :=
  rfl

/- ## Claim C4: amended theorem -/

/-- C4 (amended): the client framer (OvalNode.tsx) accumulates stripped line
content across chunk boundaries and counts brace and bracket characters with
no string-quote or escape awareness; it attempts a JSON decode exactly when
the running count returns to zero at the end of a processed line, resetting
the buffer and the count before each decode attempt, so any processing after
an emission restarts from the clean state and a malformed but brace-balanced
record loses only itself: a stream of individually brace-balanced records,
one per line, is emitted record by record.  (String-quote tracking with
escapes exists only in the server-side framer; a brace imbalance inside a
string literal desynchronizes this client counter — see the
counterexample.) -/
theorem claim_C4_amended :
    (∀ (s : FramerState) (line : String),
      ((stripData line).trim = "" → processLine s line = (s, none)) ∧
      (¬ (stripData line).trim = "" → s.buffer = "" →
        ¬ (stripData line).startsWith lbraceS = true →
        processLine s line = (s, none)) ∧
      (∀ r : String, (processLine s line).2 = some r →
        (processLine s line).1 = ⟨"", 0⟩)) ∧
    (∀ lines : List String,
      (∀ l ∈ lines, ¬ (stripData l).trim = "" ∧
        (stripData l).startsWith lbraceS = true ∧
        braceDelta (stripData l) = 0) →
      processLines ⟨"", 0⟩ lines = (⟨"", 0⟩, lines.map stripData)) ∧
    (∀ c1 c2 : String,
      ¬ (stripData c1).trim = "" →
      (stripData c1).startsWith lbraceS = true →
      ¬ (stripData c2).trim = "" →
      ¬ braceDelta (stripData c1) = 0 →
      braceDelta (stripData c1) + braceDelta (stripData c2) = 0 →
      processLines ⟨"", 0⟩ [c1, c2] =
        (⟨"", 0⟩, [stripData c1 ++ stripData c2])) := by
  have hempty : ∀ t : String, ("" : String) ++ t = t := fun t =>
    String.empty_append t
  refine ⟨fun s line => ⟨?_, ?_, ?_⟩, ?_, ?_⟩
  · intro h
    exact processLine_blank s line h
  · intro h hb hs
    exact processLine_skip s line h hb hs
  · intro r hr
    by_cases h1 : (stripData line).trim = ""
    · rw [processLine_blank s line h1] at hr
      simp at hr
    · by_cases h2 : s.buffer = "" ∧ ¬ (stripData line).startsWith lbraceS = true
      · rw [processLine_skip s line h1 h2.1 h2.2] at hr
        simp at hr
      · rw [processLine_acc s line h1 h2] at hr ⊢
        by_cases h3 : s.count + braceDelta (stripData line) = 0
        · rw [if_pos h3]
        · rw [if_neg h3] at hr
          simp at hr
  · intro lines
    induction lines with
    | nil => intro _; rfl
    | cons l rest ih =>
      intro h
      obtain ⟨h1, h2, h3⟩ := h l (by simp)
      have hcond : ¬ ((⟨"", 0⟩ : FramerState).buffer = "" ∧
          ¬ (stripData l).startsWith lbraceS = true) := by
        simp [h2]
      have hline : processLine ⟨"", 0⟩ l = (⟨"", 0⟩, some (stripData l)) := by
        rw [processLine_acc ⟨"", 0⟩ l h1 hcond]
        have hz : (⟨"", 0⟩ : FramerState).count + braceDelta (stripData l) = 0 := by
          show (0 : Int) + braceDelta (stripData l) = 0
          rw [h3]
          rfl
        rw [if_pos hz]
        simp [hempty]
      rw [processLines_cons, hline, ih (fun l' hl' => h l' (by simp [hl']))]
      rfl
  · intro c1 c2 h1 h2 h3 h4 h5
    have hcond1 : ¬ ((⟨"", 0⟩ : FramerState).buffer = "" ∧
        ¬ (stripData c1).startsWith lbraceS = true) := by
      simp [h2]
    have hl1 : processLine ⟨"", 0⟩ c1 =
        (⟨stripData c1, braceDelta (stripData c1)⟩, none) := by
      rw [processLine_acc ⟨"", 0⟩ c1 h1 hcond1]
      have hnz : ¬ (⟨"", 0⟩ : FramerState).count + braceDelta (stripData c1) = 0 := by
        show ¬ (0 : Int) + braceDelta (stripData c1) = 0
        simpa using h4
      rw [if_neg hnz]
      simp [hempty]
    have hne : ¬ stripData c1 = "" := by
      intro hh
      rw [hh] at h1
      exact h1 (by with_unfolding_all decide)
    have hcond2 : ¬ ((⟨stripData c1, braceDelta (stripData c1)⟩ : FramerState).buffer = "" ∧
        ¬ (stripData c2).startsWith lbraceS = true) := by
      simp [hne]
    have hl2 : processLine ⟨stripData c1, braceDelta (stripData c1)⟩ c2 =
        (⟨"", 0⟩, some (stripData c1 ++ stripData c2)) := by
      rw [processLine_acc _ c2 h3 hcond2]
      rw [if_pos h5]
    rw [processLines_cons, hl1, processLines_cons, hl2]
    rfl

/-- C4 witness: a single brace-balanced record line is emitted whole from the
clean state. -/
theorem claim_C4_witness :
    processLines ⟨"", 0⟩ [completeLine] =
      (⟨"", 0⟩, [completeLine].map stripData) :=
  claim_C4_amended.2.1 [completeLine] (by with_unfolding_all decide)

/- ## Claim C5: counterexample -/

/-- C5 counterexample: with two singleton islands, width 400 each, and
subgraphGap 300, the second island's center is 800 = (centerX + 300) + 200;
the claim's formula — running offset plus half the island width plus half the
subgraph gap — gives 950 from the running offset the code maintains
(centerX + 300 = 600), and 850 even measuring from the first island's right
edge (500); neither matches. -/
theorem claim_C5_counterexample :
    islandCenters [na, nb] [] (some prms) = [300, 800] ∧
    ¬ (800 : Rat) = 600 + 400 / 2 + 300 / 2 ∧
    ¬ (800 : Rat) = 500 + 400 / 2 + 300 / 2 := by
  with_unfolding_all decide

/- ## Packing lemmas for claim C5 -/

theorem layoutSubgraphCore_snd (s : Node) (ns : List Node) (fE : List Edge)
    (cx vg bo : Rat) :
    (layoutSubgraphCore s ns fE cx vg bo).2 =
      max 400 (((maxNodesAt (coreLevels s.id ns fE) ns : Rat) - 1) * bo + 200) :=
  rfl

/-- The island width computed by `layoutSubgraph` does not depend on the
island's center. -/
theorem layoutSubgraph_snd_indep (ns : List Node) (es fE : List Edge)
    (cx cx' vg bo : Rat) :
    (layoutSubgraph ns es fE cx vg bo).2 =
      (layoutSubgraph ns es fE cx' vg bo).2 := by
  unfold layoutSubgraph
  by_cases h : ns.isEmpty
  · simp [h]
  · simp only [h, Bool.false_eq_true, if_false]
    cases hf : ns.find?
        (fun n => ¬ (es.map (fun e => e.target)).contains n.id = true) with
    | none => rfl
    | some s => rw [layoutSubgraphCore_snd, layoutSubgraphCore_snd]

/-- Closed form for the centers of the non-first islands: each sits 200 to the
right of the running start, which accumulates the widths and gaps of the
islands before it. -/
theorem packGo_centers_false (nodes : List Node) (fE : List Edge)
    (vg bo sg cX : Rat) :
    ∀ (islands : List (List String)) (i : Nat) (start : Rat),
      i < islands.length →
      (packGo nodes fE vg bo sg cX islands start false).2[i]? =
        some (start + 200 +
          ((islands.take i).map
            (fun ids => islandWidth nodes fE vg bo ids + sg)).sum) := by
  intro islands
  induction islands with
  | nil =>
    intro i start h
    simp at h
  | cons ids rest ih =>
    intro i start h
    cases i with
    | zero =>
      simp [packGo]
    | succ j =>
      have hj : j < rest.length := by simpa using h
      have hw : (layoutSubgraph (subNodesFor nodes ids) (subEdgesFor fE ids)
          fE (start + 200) vg bo).2 = islandWidth nodes fE vg bo ids :=
        layoutSubgraph_snd_indep _ _ _ _ _ _ _
      simp only [packGo, Bool.false_eq_true, if_false, List.getElem?_cons_succ]
      rw [ih j _ hj, hw]
      simp only [List.take_succ_cons, List.map_cons, List.sum_cons]
      have : start + islandWidth nodes fE vg bo ids + sg + 200 = start + 200 +
          (islandWidth nodes fE vg bo ids + sg) := by ring
      rw [this, add_assoc]

theorem findSubgraphs_nil (es : List Edge) : findSubgraphs [] es = [] := by
  simp [findSubgraphs, groupGo]

/- ## Claim C5: amended theorem -/

/-- C5 (amended): the first island's spine x is `params.centerX`; each
subsequent island's spine x is `nextSubgraphStart + 200`, where
`nextSubgraphStart` begins at `centerX + 300` and, after each subsequent
island, grows by that island's width plus `subgraphGap` (the claimed
`half-width + subgraphGap/2` formula does not match the code — see the
counterexample); and for an island with a root candidate the island width is
`max(400, (maxNodesAtLevel − 1)·branchOffset + 200)` as the claim states. -/
theorem claim_C5_amended :
    (∀ (nodes : List Node) (edges : List Edge) (p : LayoutParams),
      ¬ findSubgraphs nodes (forwardEdgesOf nodes edges) = [] →
      (islandCenters nodes edges (some p))[0]? = some p.centerX) ∧
    (∀ (nodes : List Node) (edges : List Edge) (p : LayoutParams) (i : Nat),
      i + 1 < (findSubgraphs nodes (forwardEdgesOf nodes edges)).length →
      (islandCenters nodes edges (some p))[i + 1]? =
        some (p.centerX + 300 + 200 +
          ((((findSubgraphs nodes (forwardEdgesOf nodes edges)).drop 1).take i).map
            (fun ids => islandWidth nodes (forwardEdgesOf nodes edges)
              p.verticalGap p.branchOffset ids + p.subgraphGap)).sum)) ∧
    (∀ (ns : List Node) (es fE : List Edge) (cx vg bo : Rat) (s : Node),
      ns.find? (fun n => ¬ (es.map (fun e => e.target)).contains n.id = true) =
        some s →
      (layoutSubgraph ns es fE cx vg bo).2 =
        max 400 (((maxNodesAtLevelOf s.id ns fE : Rat) - 1) * bo + 200)) := by
  have hnodes : ∀ (nodes : List Node) (edges : List Edge),
      ¬ findSubgraphs nodes (forwardEdgesOf nodes edges) = [] → ¬ nodes = [] := by
    intro nodes edges hne hnil
    rw [hnil, findSubgraphs_nil] at hne
    exact hne rfl
  refine ⟨?_, ?_, ?_⟩
  · intro nodes edges p hne
    have hn := hnodes nodes edges hne
    have hempty : nodes.isEmpty = false := by
      cases nodes with
      | nil => exact absurd rfl hn
      | cons a l => rfl
    unfold islandCenters
    simp only [hempty, Bool.false_eq_true, if_false, Option.map_some', Option.map_some,
      Option.getD_some]
    cases hs : findSubgraphs nodes (forwardEdgesOf nodes edges) with
    | nil => exact absurd hs hne
    | cons s0 srest => simp [packGo]
  · intro nodes edges p i hi
    have hne : ¬ findSubgraphs nodes (forwardEdgesOf nodes edges) = [] := by
      intro hnil
      rw [hnil] at hi
      simp at hi
    have hn := hnodes nodes edges hne
    have hempty : nodes.isEmpty = false := by
      cases nodes with
      | nil => exact absurd rfl hn
      | cons a l => rfl
    unfold islandCenters
    simp only [hempty, Bool.false_eq_true, if_false, Option.map_some', Option.map_some,
      Option.getD_some]
    cases hs : findSubgraphs nodes (forwardEdgesOf nodes edges) with
    | nil => exact absurd hs hne
    | cons s0 srest =>
      rw [hs] at hi
      have hj : i < srest.length := by simpa using hi
      simp only [packGo, if_true, List.getElem?_cons_succ]
      rw [packGo_centers_false nodes (forwardEdgesOf nodes edges)
        p.verticalGap p.branchOffset p.subgraphGap p.centerX srest i
        (p.centerX + 300) hj]
      simp
  · intro ns es fE cx vg bo s hf
    have hempty : ns.isEmpty = false := by
      cases ns with
      | nil => simp at hf
      | cons a l => rfl
    unfold layoutSubgraph
    rw [hempty]
    simp only [Bool.false_eq_true, if_false, hf]
    exact layoutSubgraphCore_snd s ns fE cx vg bo

/-- C5 witness: with three singleton islands and subgraphGap 300 the third
island's center is 300 + 500 + (400 + 300) = 1500. -/
theorem claim_C5_witness :
    (islandCenters [na, nb, nc] [] (some prms))[2]? = some
      (prms.centerX + 300 + 200 +
        ((((findSubgraphs [na, nb, nc] (forwardEdgesOf [na, nb, nc] [])).drop 1).take 1).map
          (fun ids => islandWidth [na, nb, nc] (forwardEdgesOf [na, nb, nc] [])
            prms.verticalGap prms.branchOffset ids + prms.subgraphGap)).sum) :=
  claim_C5_amended.2.1 [na, nb, nc] [] prms 1 (by with_unfolding_all decide)

/- ## Claim C6: counterexample -/

/-- C6 counterexample: a self-loop (source = target) whose `type` is not
"selfConnecting" survives the forward-edge filter, so it is not excluded from
the leveling adjacency as the claim asserts. -/
theorem claim_C6_counterexample :
    eSelf.source = eSelf.target ∧
    forwardEdgesOf [na] [eSelf] = [eSelf] := by
  with_unfolding_all decide

/- ## Claim C6: amended theorem -/

/-- C6 (amended): an edge whose two endpoints resolve to nodes is classified
loop-back exactly when the target's prior y is strictly below the source's
prior y; a self-loop is never classified loop-back (its endpoints resolve to
the same node, and the strict comparison fails), but it is excluded from the
leveling adjacency only when its `type` is "selfConnecting" — membership in
the forward-edge list is exactly: membership in the input, type not
"selfConnecting", and not loop-back. -/
theorem claim_C6_amended :
    (∀ (nodes : List Node) (e : Edge) (s t : Node),
      nodes.find? (fun n => n.id = e.source) = some s →
      nodes.find? (fun n => n.id = e.target) = some t →
      (isLoopBack e nodes = true ↔ t.position.y < s.position.y)) ∧
    (∀ (nodes : List Node) (e : Edge), e.source = e.target →
      isLoopBack e nodes = false) ∧
    (∀ (nodes : List Node) (edges : List Edge) (e : Edge),
      e ∈ forwardEdgesOf nodes edges ↔
        e ∈ edges ∧ ¬ e.type = some selfConnectingS ∧
          isLoopBack e nodes = false) := by
  refine ⟨fun nodes e s t hs ht => ?_, fun nodes e h => ?_, fun nodes edges e => ?_⟩
  · simp [isLoopBack, hs, ht]
  · simp only [isLoopBack, h]
    cases hf : nodes.find? (fun n => n.id = e.target) with
    | none => rfl
    | some s => simp
  · simp [forwardEdgesOf, List.mem_filter]

/-- C6 witness: the self-loop fixture is not classified loop-back even though
it survives the forward-edge filter. -/
theorem claim_C6_witness :
    isLoopBack eSelf [na] = false :=
  claim_C6_amended.2.1 [na] eSelf (by decide)

/- ## Claim C7: counterexample -/

/-- C7 counterexample: on the two-node cycle a→b→a (equal prior ys, so both
edges are forward and neither node is a root candidate), `layoutSubgraph`
returns the prior positions shifted horizontally by startX — (300,0), (305,0)
— which differs from the BFS leveling ran from either of the island's two
nodes (which yields centered xs 225 and distinct ys 0 and 110), so no "BFS
from an arbitrarily chosen node" takes place. -/
theorem claim_C7_counterexample :
    (layoutSubgraph [ca, cb] [eab, eba] [eab, eba] 300 60 200).1.map
        (fun n => (n.id, n.position.x, n.position.y)) =
      [("a", 300, 0), ("b", 305, 0)] ∧
    ¬ layoutSubgraph [ca, cb] [eab, eba] [eab, eba] 300 60 200 =
        layoutSubgraphCore ca [ca, cb] [eab, eba] 300 60 200 ∧
    ¬ layoutSubgraph [ca, cb] [eab, eba] [eab, eba] 300 60 200 =
        layoutSubgraphCore cb [ca, cb] [eab, eba] 300 60 200 := by
  with_unfolding_all decide

/- ## Claim C7: amended theorem -/

/-- C7 (amended): for a non-empty island in which every node has an in-island
incoming forward edge (no root candidate), `layoutSubgraph` does not run BFS;
its explicit fallback branch returns every node at its prior position shifted
horizontally by the island's center x (y unchanged), with island width 400,
and no failure occurs. -/
theorem claim_C7_amended :
    ∀ (nodes : List Node) (edges fE : List Edge) (startX vg bo : Rat),
      ¬ nodes = [] →
      (∀ n ∈ nodes, (edges.map (fun e => e.target)).contains n.id = true) →
      layoutSubgraph nodes edges fE startX vg bo =
        (nodes.map (fun n =>
          { n with position := ⟨n.position.x + startX, n.position.y⟩ }), 400) := by
  intro nodes edges fE startX vg bo hne hall
  have hfind : nodes.find?
      (fun n => ¬ ((edges.map (fun e => e.target)).contains n.id) = true) = none := by
    rw [List.find?_eq_none]
    intro n hn
    simpa using hall n hn
  cases nodes with
  | nil => exact absurd rfl hne
  | cons a l =>
    simp only [layoutSubgraph, List.isEmpty_cons, hfind]
    rfl

/-- C7 witness: the two-node cycle instantiates the fallback characterization. -/
theorem claim_C7_witness :
    layoutSubgraph [ca, cb] [eab, eba] [eab, eba] 300 60 200 =
      ([ca, cb].map (fun n =>
        { n with position := ⟨n.position.x + 300, n.position.y⟩ }), 400) :=
  claim_C7_amended [ca, cb] [eab, eba] [eab, eba] 300 60 200 (by decide)
    (by decide)

/- ## Claim C8: counterexample -/

/-- C8 counterexample: two edges whose targets X and Y match no node do change
the island partition — union-find funnels both endpoints through the
`undefined` sentinel key, merging the otherwise disconnected nodes a and b
into one island — and the resulting positions, (25,0) and (425,0), differ from
the positions with the dangling edges absent, (225,0) and (725,0). -/
theorem claim_C8_counterexample :
    findSubgraphs [na, nb] (forwardEdgesOf [na, nb] [eaX, ebY]) = [["a", "b"]] ∧
    findSubgraphs [na, nb] (forwardEdgesOf [na, nb] []) = [["a"], ["b"]] ∧
    ((getLayoutedElements [na, nb] [eaX, ebY] (some prms)).nodes.map
        (fun n => (n.id, n.position.x, n.position.y))) =
      [("a", 25, 0), ("b", 425, 0)] ∧
    ((getLayoutedElements [na, nb] [] (some prms)).nodes.map
        (fun n => (n.id, n.position.x, n.position.y))) =
      [("a", 225, 0), ("b", 725, 0)] := by
  with_unfolding_all decide

/- ## Island-membership lemmas -/

theorem addGroup_members {P : String → Prop}
    (gs : List (Option String × List String)) (root : Option String)
    (id : String) (hgs : ∀ g ∈ gs, ∀ x ∈ g.2, P x) (hid : P id) :
    ∀ g ∈ addGroup gs root id, ∀ x ∈ g.2, P x := by
  unfold addGroup
  by_cases h : gs.any (fun g => g.1 = root)
  · simp only [if_pos h]
    intro g hg x hx
    obtain ⟨g', hg', hge⟩ := List.mem_map.mp hg
    by_cases hgr : g'.1 = root
    · rw [if_pos hgr] at hge
      rw [← hge] at hx
      rcases List.mem_append.mp hx with hx | hx
      · exact hgs g' hg' x hx
      · simp at hx
        rw [hx]
        exact hid
    · rw [if_neg hgr] at hge
      rw [← hge] at hx
      exact hgs g' hg' x hx
  · simp only [if_neg h]
    intro g hg x hx
    rcases List.mem_append.mp hg with hg | hg
    · exact hgs g hg x hx
    · simp at hg
      rw [hg] at hx
      simp at hx
      rw [hx]
      exact hid

theorem groupGo_members {P : String → Prop} (fuel : Nat) :
    ∀ (ns : List Node) (p : Option String → Option String)
      (gs : List (Option String × List String)),
      (∀ g ∈ gs, ∀ x ∈ g.2, P x) → (∀ n ∈ ns, P n.id) →
      ∀ g ∈ groupGo fuel ns p gs, ∀ x ∈ g.2, P x := by
  intro ns
  induction ns with
  | nil =>
    intro p gs hgs _
    simpa [groupGo] using hgs
  | cons n rest ih =>
    intro p gs hgs hns
    simp only [groupGo]
    exact ih _ _ (addGroup_members gs _ n.id hgs (hns n (by simp)))
      (fun n' hn' => hns n' (by simp [hn']))

/-- Every member of every island is the id of some input node. -/
theorem findSubgraphs_members (nodes : List Node) (es : List Edge) :
    ∀ ids ∈ findSubgraphs nodes es, ∀ x ∈ ids, ∃ n ∈ nodes, n.id = x := by
  intro ids hids x hx
  simp only [findSubgraphs] at hids
  obtain ⟨g, hg, hge⟩ := List.mem_map.mp hids
  refine @groupGo_members (fun x => ∃ n ∈ nodes, n.id = x) _ nodes _ []
    (by simp) (fun n hn => ⟨n, hn, rfl⟩) g hg x ?_
  rw [hge]
  exact hx

theorem addGroup_self (gs : List (Option String × List String))
    (root : Option String) (id : String) :
    ∃ g ∈ addGroup gs root id, id ∈ g.2 := by
  unfold addGroup
  by_cases h : gs.any (fun g => g.1 = root)
  · simp only [if_pos h]
    obtain ⟨g', hg', hr⟩ := List.any_eq_true.mp h
    refine ⟨_, List.mem_map_of_mem _ hg', ?_⟩
    rw [if_pos (of_decide_eq_true hr)]
    simp
  · simp only [if_neg h]
    exact ⟨(root, [id]), by simp, by simp⟩

theorem addGroup_preserve (gs : List (Option String × List String))
    (root : Option String) (id : String) (x : String)
    (h : ∃ g ∈ gs, x ∈ g.2) : ∃ g ∈ addGroup gs root id, x ∈ g.2 := by
  obtain ⟨g, hg, hx⟩ := h
  unfold addGroup
  by_cases hany : gs.any (fun g => g.1 = root)
  · simp only [if_pos hany]
    refine ⟨_, List.mem_map_of_mem _ hg, ?_⟩
    by_cases hr : g.1 = root
    · rw [if_pos hr]
      simp [hx]
    · rw [if_neg hr]
      exact hx
  · simp only [if_neg hany]
    exact ⟨g, List.mem_append.mpr (Or.inl hg), hx⟩

theorem groupGo_preserve (fuel : Nat) :
    ∀ (ns : List Node) (p : Option String → Option String)
      (gs : List (Option String × List String)) (x : String),
      (∃ g ∈ gs, x ∈ g.2) → ∃ g ∈ groupGo fuel ns p gs, x ∈ g.2 := by
  intro ns
  induction ns with
  | nil =>
    intro p gs x h
    simpa [groupGo] using h
  | cons n rest ih =>
    intro p gs x h
    simp only [groupGo]
    exact ih _ _ x (addGroup_preserve gs _ n.id x h)

theorem groupGo_covers (fuel : Nat) :
    ∀ (ns : List Node) (p : Option String → Option String)
      (gs : List (Option String × List String)) (n : Node), n ∈ ns →
      ∃ g ∈ groupGo fuel ns p gs, n.id ∈ g.2 := by
  intro ns
  induction ns with
  | nil =>
    intro p gs n h
    simp at h
  | cons a rest ih =>
    intro p gs n h
    rcases List.mem_cons.mp h with h | h
    · subst h
      simp only [groupGo]
      exact groupGo_preserve fuel rest _ _ n.id (addGroup_self gs _ n.id)
    · simp only [groupGo]
      exact ih _ _ n h

/-- Every input node's id lands in some island. -/
theorem findSubgraphs_covers (nodes : List Node) (es : List Edge) :
    ∀ n ∈ nodes, ∃ ids ∈ findSubgraphs nodes es, n.id ∈ ids := by
  intro n hn
  simp only [findSubgraphs]
  obtain ⟨g, hg, hx⟩ := groupGo_covers _ nodes _ [] n hn
  exact ⟨g.2, List.mem_map_of_mem _ hg, hx⟩

/- ## Claim C8: amended theorem -/

/-- C8 (amended): an edge with a dangling endpoint is never classified
loop-back, and it is excluded from every island's internal edge list (hence
from per-island root search and, via the island filters, from leveling), and
the layout call is total; such an edge does however take part in the
union-find pass, which can change the island partition itself — see the
counterexample. -/
theorem claim_C8_amended :
    ∀ (nodes : List Node) (edges : List Edge) (e : Edge),
      (nodes.find? (fun n => n.id = e.source) = none ∨
       nodes.find? (fun n => n.id = e.target) = none) →
      isLoopBack e nodes = false ∧
      ∀ ids ∈ findSubgraphs nodes (forwardEdgesOf nodes edges),
        ¬ e ∈ subEdgesFor (forwardEdgesOf nodes edges) ids := by
  intro nodes edges e h
  constructor
  · unfold isLoopBack
    rcases h with h | h
    · rw [h]
    · cases hf1 : nodes.find? (fun n => n.id = e.source) with
      | none => rw [h]
      | some s => rw [h]
  · intro ids hids hmem
    have hflt := List.mem_filter.mp hmem
    have hcond := hflt.2
    simp only [subEdgesFor] at hcond
    simp at hcond
    rcases h with h | h
    · obtain ⟨n, hn, hne⟩ :=
        findSubgraphs_members nodes _ ids hids e.source hcond.1
      rw [List.find?_eq_none] at h
      exact h n hn (by simp [hne])
    · obtain ⟨n, hn, hne⟩ :=
        findSubgraphs_members nodes _ ids hids e.target hcond.2
      rw [List.find?_eq_none] at h
      exact h n hn (by simp [hne])

/-- C8 witness: the dangling edge fixture is not loop-back. -/
theorem claim_C8_witness :
    isLoopBack eaX [na, nb] = false :=
  (claim_C8_amended [na, nb] [eaX, ebY] eaX
    (Or.inr (by with_unfolding_all decide))).1

/- ## Claim C9: counterexample -/

/- ## Shape lemmas for claim C9 -/

theorem posPass_shape (lf : String → Nat) (bf : Nat → List Node)
    (pf : String → List String) (yf : Nat → Rat) (cx bo : Rat) :
    ∀ (ns : List Node) (npos : List (String × Rat)),
      (∀ m ∈ posPass lf bf pf yf cx bo ns npos,
        ∃ n ∈ ns, m = { n with position := m.position }) ∧
      (∀ n ∈ ns, ∃ m ∈ posPass lf bf pf yf cx bo ns npos,
        m = { n with position := m.position }) := by
  intro ns
  induction ns with
  | nil =>
    intro npos
    exact ⟨by simp [posPass], by simp⟩
  | cons node rest ih =>
    intro npos
    constructor
    · intro m hm
      simp only [posPass] at hm
      rcases List.mem_cons.mp hm with hm | hm
      · exact ⟨node, by simp, by rw [hm]⟩
      · obtain ⟨n, hn, he⟩ := (ih _).1 m hm
        exact ⟨n, by simp [hn], he⟩
    · intro n hn
      rcases List.mem_cons.mp hn with hn | hn
      · subst hn
        simp only [posPass]
        exact ⟨_, List.mem_cons_self _ _, rfl⟩
      · obtain ⟨m, hm, he⟩ := (ih (jsInsert npos node.id
          (posStep pf npos cx bo (getNodeWidth node.type)
            (idxOfNode (bf (lf node.id)) node) (bf (lf node.id)).length
            node.id).2)).2 n hn
        refine ⟨m, ?_, he⟩
        simp only [posPass]
        exact List.mem_cons_of_mem _ hm

theorem layoutSubgraph_shape (ns : List Node) (es fE : List Edge)
    (cx vg bo : Rat) :
    (∀ m ∈ (layoutSubgraph ns es fE cx vg bo).1,
      ∃ n ∈ ns, m = { n with position := m.position }) ∧
    (∀ n ∈ ns, ∃ m ∈ (layoutSubgraph ns es fE cx vg bo).1,
      m = { n with position := m.position }) := by
  cases ns with
  | nil =>
    constructor
    · intro m hm
      simp [layoutSubgraph] at hm
    · intro n hn
      simp at hn
  | cons a l =>
    unfold layoutSubgraph
    cases hf : (a :: l).find?
        (fun n => ¬ ((es.map (fun e => e.target)).contains n.id) = true) with
    | none =>
      simp only [List.isEmpty_cons, Bool.false_eq_true, if_false, hf]
      constructor
      · intro m hm
        obtain ⟨n, hn, hne⟩ := List.mem_map.mp hm
        exact ⟨n, hn, by rw [← hne]⟩
      · intro n hn
        exact ⟨{ n with position := ⟨n.position.x + cx, n.position.y⟩ },
          List.mem_map_of_mem _ hn, rfl⟩
    | some s =>
      simp only [List.isEmpty_cons, Bool.false_eq_true, if_false, hf]
      have hrfl : (layoutSubgraphCore s (a :: l) fE cx vg bo).1 =
          posPass (levelOfL (coreLevels s.id (a :: l) fE))
            (bucketAt (coreLevels s.id (a :: l) fE) (a :: l))
            (fun id => (parentOf fE id).filter
              (fun p => ((a :: l).map (fun n => n.id)).contains p))
            (levelYget (coreLevels s.id (a :: l) fE) (a :: l) vg) cx bo
            (a :: l) [] := rfl
      rw [hrfl]
      exact posPass_shape _ _ _ _ _ _ (a :: l) []

theorem packGo_shape (nodes : List Node) (fE : List Edge)
    (vg bo sg cX : Rat) :
    ∀ (islands : List (List String)) (start : Rat) (isF : Bool),
      (∀ m ∈ (packGo nodes fE vg bo sg cX islands start isF).1,
        ∃ n ∈ nodes, m = { n with position := m.position }) ∧
      (∀ ids ∈ islands, ∀ n ∈ nodes, n.id ∈ ids →
        ∃ m ∈ (packGo nodes fE vg bo sg cX islands start isF).1,
          m = { n with position := m.position }) := by
  intro islands
  induction islands with
  | nil =>
    intro start isF
    exact ⟨by simp [packGo], by simp⟩
  | cons ids rest ih =>
    intro start isF
    simp only [packGo]
    constructor
    · intro m hm
      rcases List.mem_append.mp hm with hm | hm
      · obtain ⟨n, hn, he⟩ := (layoutSubgraph_shape _ _ _ _ _ _).1 m hm
        exact ⟨n, (List.mem_filter.mp hn).1, he⟩
      · exact (ih _ _).1 m hm
    · intro ids' hids' n hn hmem
      rcases List.mem_cons.mp hids' with h | h
      · subst h
        have hsub : n ∈ subNodesFor nodes ids' :=
          List.mem_filter.mpr ⟨hn, by simp [hmem]⟩
        obtain ⟨m, hm, he⟩ := (layoutSubgraph_shape
          (subNodesFor nodes ids') (subEdgesFor fE ids') fE
          (if isF then cX else start + 200) vg bo).2 n hsub
        exact ⟨m, List.mem_append.mpr (Or.inl hm), he⟩
      · obtain ⟨m, hm, he⟩ := (ih _ _).2 ids' h n hn hmem
        exact ⟨m, List.mem_append.mpr (Or.inr hm), he⟩

theorem alGet_mem {α : Type} (m : List (String × α)) (k : String) (v : α)
    (h : alGet m k = some v) : ∃ p ∈ m, p.2 = v := by
  induction m with
  | nil => simp [alGet] at h
  | cons p r ih =>
    by_cases hp : p.1 = k
    · unfold alGet at h
      rw [if_pos hp] at h
      exact ⟨p, by simp, Option.some.inj h⟩
    · unfold alGet at h
      rw [if_neg hp] at h
      obtain ⟨q, hq, he⟩ := ih h
      exact ⟨q, by simp [hq], he⟩

theorem jsDelete_subset {α : Type} (m : List (String × α)) (k : String) :
    ∀ p ∈ jsDelete m k, p ∈ m :=
  fun _ hp => (List.mem_filter.mp hp).1

/-- Every node the merge loop emits comes verbatim from the existing list or
from the map; every leftover map entry comes from the map. -/
theorem mergeLoop_mem :
    ∀ (existing : List Node) (m : List (String × Node)) (removed : List String),
      (∀ x ∈ (mergeLoop existing m removed).1,
        x ∈ existing ∨ ∃ p ∈ m, p.2 = x) ∧
      (∀ p ∈ (mergeLoop existing m removed).2, p ∈ m) := by
  intro existing
  induction existing with
  | nil =>
    intro m removed
    simp [mergeLoop]
  | cons n rest ih =>
    intro m removed
    by_cases hr : n.id ∈ removed
    · have hstep : mergeLoop (n :: rest) m removed = mergeLoop rest m removed := by
        simp only [mergeLoop, if_pos hr]
      rw [hstep]
      refine ⟨?_, (ih m removed).2⟩
      intro x hx
      rcases (ih m removed).1 x hx with h | h
      · exact Or.inl (by simp [h])
      · exact Or.inr h
    · cases hget : alGet m n.id with
      | some u =>
        have hstep : mergeLoop (n :: rest) m removed =
            (u :: (mergeLoop rest (jsDelete m n.id) removed).1,
             (mergeLoop rest (jsDelete m n.id) removed).2) := by
          simp only [mergeLoop, if_neg hr, hget]
        rw [hstep]
        constructor
        · intro x hx
          rcases List.mem_cons.mp hx with hx | hx
          · subst hx
            exact Or.inr (alGet_mem m n.id x hget)
          · rcases (ih _ removed).1 x hx with h | h
            · exact Or.inl (by simp [h])
            · obtain ⟨p, hp, he⟩ := h
              exact Or.inr ⟨p, jsDelete_subset m n.id p hp, he⟩
        · intro p hp
          exact jsDelete_subset m n.id p ((ih _ removed).2 p hp)
      | none =>
        have hstep : mergeLoop (n :: rest) m removed =
            (n :: (mergeLoop rest m removed).1,
             (mergeLoop rest m removed).2) := by
          simp only [mergeLoop, if_neg hr, hget]
        rw [hstep]
        constructor
        · intro x hx
          rcases List.mem_cons.mp hx with hx | hx
          · exact Or.inl (by simp [hx])
          · rcases (ih m removed).1 x hx with h | h
            · exact Or.inl (by simp [h])
            · exact Or.inr h
        · exact (ih m removed).2

/-- Every value of the insertion fold comes from the initial map or from the
inserted nodes. -/
theorem foldIns_values :
    ∀ (ns : List Node) (m0 : List (String × Node)),
      ∀ p ∈ foldIns m0 ns, (∃ q ∈ m0, q.2 = p.2) ∨ p.2 ∈ ns := by
  intro ns
  induction ns with
  | nil =>
    intro m0 p hp
    exact Or.inl ⟨p, hp, rfl⟩
  | cons n rest ih =>
    intro m0 p hp
    rw [foldIns_cons] at hp
    rcases ih (jsInsert m0 n.id n) p hp with ⟨q, hq, he⟩ | h
    · unfold jsInsert at hq
      by_cases hany : m0.any (fun p => p.1 = n.id)
      · rw [if_pos hany] at hq
        obtain ⟨q', hq', hqe⟩ := List.mem_map.mp hq
        by_cases hq1 : q'.1 = n.id
        · rw [if_pos hq1] at hqe
          rw [← hqe] at he
          exact Or.inr (by rw [← he]; simp)
        · rw [if_neg hq1] at hqe
          exact Or.inl ⟨q', hq', by rw [hqe]; exact he⟩
      · rw [if_neg hany] at hq
        rcases List.mem_append.mp hq with hq | hq
        · exact Or.inl ⟨q, hq, he⟩
        · simp at hq
          rw [hq] at he
          exact Or.inr (by rw [← he]; simp)
    · exact Or.inr (by simp [h])

/- ## Claim C9: counterexample and amended theorem -/

/-- C9 counterexample: with an empty node list the layout call returns an
empty edge list even when edges were supplied (autoLayout.ts line 68), so the
returned edge list is not the input edge list unchanged. -/
theorem claim_C9_counterexample :
    (getLayoutedElements [] [e9] none).edges = [] ∧
    ¬ (getLayoutedElements [] [e9] none).edges = [e9] := by
  with_unfolding_all decide

/-- C9 (amended): when the node list is non-empty the layout returns the
input edge list verbatim (with an empty node list it returns an empty edge
list — see the counterexample); every node the layout returns is an input
node changed in no field but `position`, and every input node has such a
returned counterpart; and the merge function only ever emits node objects
taken verbatim from the existing or the upserted list. -/
theorem claim_C9_amended :
    (∀ (nodes : List Node) (edges : List Edge) (params : Option LayoutParams),
      ¬ nodes = [] → (getLayoutedElements nodes edges params).edges = edges) ∧
    (∀ (edges : List Edge) (params : Option LayoutParams),
      (getLayoutedElements [] edges params).edges = []) ∧
    (∀ (nodes : List Node) (edges : List Edge) (params : Option LayoutParams),
      ∀ m ∈ (getLayoutedElements nodes edges params).nodes,
        ∃ n ∈ nodes, m = { n with position := m.position }) ∧
    (∀ (nodes : List Node) (edges : List Edge) (params : Option LayoutParams),
      ∀ n ∈ nodes,
        ∃ m ∈ (getLayoutedElements nodes edges params).nodes,
          m = { n with position := m.position }) ∧
    (∀ (existing updated : List Node) (removed : List String),
      ∀ m ∈ mergeNodes existing updated removed,
        m ∈ existing ∨ m ∈ updated) := by
  have hmap : ∀ (p : String × Node) (updated : List Node),
      p ∈ buildJsMap updated → p.2 ∈ updated := by
    intro p updated hp
    rcases foldIns_values updated [] p
        (by rw [← buildJsMap_eq_foldIns]; exact hp) with ⟨q, hq, _⟩ | h2
    · simp at hq
    · exact h2
  refine ⟨?_, ?_, ?_, ?_, ?_⟩
  · intro nodes edges params hne
    cases nodes with
    | nil => exact absurd rfl hne
    | cons a l => rfl
  · intro edges params
    rfl
  · intro nodes edges params m hm
    cases nodes with
    | nil => simp [getLayoutedElements] at hm
    | cons a l =>
      revert hm
      unfold getLayoutedElements
      simp only [List.isEmpty_cons, Bool.false_eq_true, if_false]
      intro hm
      exact (packGo_shape _ _ _ _ _ _ _ _ _).1 m hm
  · intro nodes edges params n hn
    cases nodes with
    | nil => simp at hn
    | cons a l =>
      unfold getLayoutedElements
      simp only [List.isEmpty_cons, Bool.false_eq_true, if_false]
      obtain ⟨ids, hids, hmem⟩ :=
        findSubgraphs_covers (a :: l)
          (forwardEdgesOf (a :: l) edges) n hn
      exact (packGo_shape _ _ _ _ _ _ _ _ _).2 ids hids n hn hmem
  · intro existing updated removed m hm
    unfold mergeNodes at hm
    rcases List.mem_append.mp hm with hm | hm
    · rcases (mergeLoop_mem existing _ removed).1 m hm with h | h
      · exact Or.inl h
      · obtain ⟨p, hp, he⟩ := h
        exact Or.inr (he ▸ hmap p updated hp)
    · obtain ⟨p, hp, he⟩ := List.mem_map.mp hm
      have hpm := (mergeLoop_mem existing _ removed).2 p hp
      exact Or.inr (he ▸ hmap p updated hpm)

/-- C9 witness: the layout of a single node returns that node with only its
position changed. -/
theorem claim_C9_witness :
    ∃ m ∈ (getLayoutedElements [na] [] none).nodes,
      m = { na with position := m.position } :=
  claim_C9_amended.2.2.2.1 [na] [] none na (by simp)

end ProcessXY
